import Mathlib

/-!
# Verification of the `mph` CHD minimal-perfect-hash package

A shallow embedding of the Go package `mph` (compress-hash-displace minimal
perfect hashing) and proofs about its specification.

Conventions of the embedding:

* Go byte slices become `List Nat` (each entry is the byte's value).
* Go machine integers become `Nat` with explicit `% 2^w` where the Go code
  wraps or truncates (`uint64` multiplication, `uint32`/`uint16` casts).
* A Go runtime panic (index out of range, integer divide by zero, slice
  bounds out of range) is modelled as `Option.none`; a normal return is
  `Option.some`.
* Functions are translated from the package source.  The builder and the
  `sliceReader` cursor are not part of the given sources; they are modelled
  from the specification and marked `Modelled from the spec:` in their doc
  comments.
-/

/-- Go `[]byte`: a byte string, one `Nat` per byte. -/
abbrev Bytes := List Nat

namespace Mph

/-- 64-bit FNV offset basis, the literal `14695981039346656037` from `hasher`. -/
def fnvBasis : Nat := 14695981039346656037

/-- 64-bit FNV prime, the literal `1099511628211` from `hasher`. -/
def fnvPrime : Nat := 1099511628211

/-- `hasher` from `indexer.go`: FNV-1a over the data bytes.
Go code: `hash = 14695981039346656037; for c in data { hash ^= uint64(c); hash *= 1099511628211 }`.
The `uint64` multiplication wraps, hence the explicit `% 2^64`. -/
def hasher (data : Bytes) : Nat :=
  data.foldl (fun hash c => ((hash ^^^ c) * fnvPrime) % 2 ^ 64) fnvBasis

/-- `Indexer` from `indexer.go`: the random hash function table `r` (Go
`[]uint64`) and the per-bucket selectors `indices` (Go `[]uint16`). -/
structure Indexer where
  r : List Nat
  indices : List Nat
deriving DecidableEq, Repr

/-- `Indexer.Get` from `indexer.go`:

```
r0 := c.r[0]                        // panics when r is empty
h := hasher(key) ^ r0
i := h % uint64(len(c.indices))     // Go: divide-by-zero panic when indices is empty
ri := c.indices[i]
if ri >= uint16(len(c.r)) { return 0 }   // note the truncating uint16 cast
r := c.r[ri]
return (h ^ r) % uint64(numKeys)    // Go: divide-by-zero panic when numKeys == 0
```

`none` models the three Go runtime panics; `some` a normal return. -/
def Indexer.Get (c : Indexer) (key : Bytes) (numKeys : Nat) : Option Nat :=
  match c.r.head? with
  | none => none
  | some r0 =>
    let h := hasher key ^^^ r0
    if hi : c.indices.length = 0 then none
    else
      let ri := c.indices.get ⟨h % c.indices.length, Nat.mod_lt _ (Nat.pos_of_ne_zero hi)⟩
      if hs : c.r.length % 65536 ≤ ri then some 0
      else if hk : numKeys = 0 then none
      else some ((h ^^^ c.r.get ⟨ri, by omega⟩) % numKeys)

/-- `CHD` from the table source file: an `Indexer` plus the parallel key and
value arrays. -/
structure CHD where
  Indexer : Indexer
  keys : List Bytes
  values : List Bytes
deriving DecidableEq, Repr

/-- `CHD.Get` from the table source file:

```
ti := c.Indexer.Get(key, len(c.keys))
k := c.keys[ti]                     // panics when ti is out of range
if bytes.Compare(k, key) != 0 { return nil }
v := c.values[ti]                   // panics when ti is out of range
return v
```

Outer `none` models a Go runtime panic; `some none` models the `nil`
("absent") return; `some (some v)` models a found value. -/
def CHD.Get (c : CHD) (key : Bytes) : Option (Option Bytes) :=
  match c.Indexer.Get key c.keys.length with
  | none => none
  | some ti =>
    match c.keys.get? ti with
    | none => none
    | some k =>
      if k = key then
        match c.values.get? ti with
        | none => none
        | some v => some (some v)
      else some none

/-- `CHD.Len` from the table source file. -/
def CHD.Len (c : CHD) : Nat := c.keys.length

/-! ## Serialization -/

/-- Little-endian encoding of `x` on `w` bytes, as Go's `binary.Write` with
`binary.LittleEndian` emits for a `w`-byte unsigned integer.  Only the low
`w` bytes are kept, which is exactly the behaviour of Go's truncating
integer casts (`uint32(len(...))` etc.). -/
def enc : Nat → Nat → Bytes
  | 0, _ => []
  | w + 1, x => x % 256 :: enc w (x / 256)

/-- Little-endian decoding of a byte string, as Go's
`binary.LittleEndian.Uint32`/`Uint64`/`Uint16` compute on their input bytes. -/
def dec : Bytes → Nat
  | [] => 0
  | b :: bs => b + 256 * dec bs

/-- `Indexer.Write` from `indexer.go`, as the byte string it sends to the
writer: `uint32(len(c.r))`, each element of `c.r` as a little-endian
`uint64`, `uint32(len(c.indices))`, each element of `c.indices` as a
little-endian `uint16`. -/
def Indexer.Write (c : Indexer) : Bytes :=
  enc 4 c.r.length ++ c.r.flatMap (enc 8) ++
    enc 4 c.indices.length ++ c.indices.flatMap (enc 2)

/-- The per-entry loop of `CHD.Write`: for each index `i` over `keys`, emit
`uint32(len(k))`, `uint32(len(v))`, the raw key bytes and the raw value
bytes, where `k, v := c.keys[i], c.values[i]`.  The Go access `c.values[i]`
panics (modelled `none`) when `values` is shorter than `keys`; values beyond
`len(keys)` are never read. -/
def entriesBytes : List Bytes → List Bytes → Option Bytes
  | [], _ => some []
  | k :: ks, v :: vs =>
    match entriesBytes ks vs with
    | none => none
    | some rest => some (enc 4 k.length ++ enc 4 v.length ++ k ++ v ++ rest)
  | _ :: _, [] => none

/-- `CHD.Write` from the table source file, as the byte string it sends to
the writer.  The source inlines the indexer fields rather than calling
`Indexer.Write`:
`uint32(len(r)) | r | uint32(len(indices)) | indices | uint32(len(keys))`
followed by the per-entry loop. -/
def CHD.Write (c : CHD) : Option Bytes :=
  match entriesBytes c.keys c.values with
  | none => none
  | some e =>
    some (enc 4 c.Indexer.r.length ++ c.Indexer.r.flatMap (enc 8) ++
      enc 4 c.Indexer.indices.length ++ c.Indexer.indices.flatMap (enc 2) ++
      enc 4 c.keys.length ++ e)

/-- Modelled from the spec: the `sliceReader` cursor (its source file is not
among the given sources; only its callers in `Mmap`/`mmapIndexer` are).  Per
§4.3 of the spec it parses the prefix-length-delimited format "advancing a
cursor by exactly the consumed byte count".  It holds the backing buffer and
the cursor position. -/
structure sliceReader where
  b : Bytes
  pos : Nat
deriving Repr

/-- Modelled from the spec: `sliceReader.Read(size)` returns the next `size`
bytes and advances the cursor by exactly `size`.  Its call sites offer no
error channel (they use the returned slice directly), so when fewer than
`size` bytes remain the Go slice expression is out of bounds and panics:
modelled as `none`. -/
def sliceReader.Read (br : sliceReader) (size : Nat) : Option (Bytes × sliceReader) :=
  if br.pos + size ≤ br.b.length then
    some ((br.b.drop br.pos).take size, ⟨br.b, br.pos + size⟩)
  else none

/-- Modelled from the spec: `sliceReader.ReadInt` reads 4 bytes and decodes
them as a little-endian `uint32` (the `u32` length fields of §6). -/
def sliceReader.ReadInt (br : sliceReader) : Option (Nat × sliceReader) :=
  match br.Read 4 with
  | none => none
  | some (bs, br2) => some (dec bs, br2)

/-- Split a byte string into `cnt` consecutive `w`-byte little-endian
integers (how the spec's `u64[rLen]`/`u16[indicesLen]` flat arrays are read
back). -/
def decChunks (w : Nat) : Nat → Bytes → List Nat
  | 0, _ => []
  | n + 1, bs => dec (bs.take w) :: decChunks w n (bs.drop w)

/-- Modelled from the spec: `sliceReader.ReadUint64Array(n)` consumes `8*n`
bytes and yields the `n` little-endian `uint64` values. -/
def sliceReader.ReadUint64Array (br : sliceReader) (n : Nat) : Option (List Nat × sliceReader) :=
  match br.Read (8 * n) with
  | none => none
  | some (bs, br2) => some (decChunks 8 n bs, br2)

/-- Modelled from the spec: `sliceReader.ReadUint16Array(n)` consumes `2*n`
bytes and yields the `n` little-endian `uint16` values. -/
def sliceReader.ReadUint16Array (br : sliceReader) (n : Nat) : Option (List Nat × sliceReader) :=
  match br.Read (2 * n) with
  | none => none
  | some (bs, br2) => some (decChunks 2 n bs, br2)

/-- `mmapIndexer` from `indexer.go`.  Note the source returns `(c, nil)`
unconditionally — it has no error-returning path at all; the only abnormal
outcome is the Go runtime panic raised inside the `sliceReader` (modelled
`none`):

```
rl := bi.ReadInt()
c.r = bi.ReadUint64Array(rl)
il := bi.ReadInt()
c.indices = bi.ReadUint16Array(il)
return c, nil
```
-/
def mmapIndexer (bi : sliceReader) : Option (Indexer × sliceReader) :=
  match bi.ReadInt with
  | none => none
  | some (rl, bi) =>
    match bi.ReadUint64Array rl with
    | none => none
    | some (r, bi) =>
      match bi.ReadInt with
      | none => none
      | some (il, bi) =>
        match bi.ReadUint16Array il with
        | none => none
        | some (indices, bi) => some (⟨r, indices⟩, bi)

/-- `MmapIndexer` from `indexer.go`: run `mmapIndexer` over a fresh cursor on
the byte region. -/
def MmapIndexer (b : Bytes) : Option Indexer :=
  match mmapIndexer ⟨b, 0⟩ with
  | none => none
  | some (c, _) => some c

/-- `ReadIndexer` from `indexer.go`: read the whole stream into memory, then
delegate to `MmapIndexer`.  A stream that successfully yields the byte
string `b` therefore gives exactly `MmapIndexer b`. -/
def ReadIndexer (b : Bytes) : Option Indexer := MmapIndexer b

/-- The per-entry loop of `Mmap`: `el` times read `kl := ReadInt()`,
`vl := ReadInt()`, then slice `kl` key bytes and `vl` value bytes. -/
def readPairs : Nat → sliceReader → Option (List Bytes × List Bytes × sliceReader)
  | 0, bi => some ([], [], bi)
  | n + 1, bi =>
    match bi.ReadInt with
    | none => none
    | some (kl, bi) =>
      match bi.ReadInt with
      | none => none
      | some (vl, bi) =>
        match bi.Read kl with
        | none => none
        | some (k, bi) =>
          match bi.Read vl with
          | none => none
          | some (v, bi) =>
            match readPairs n bi with
            | none => none
            | some (ks, vs, bi) => some (k :: ks, v :: vs, bi)

/-- `Mmap` from the table source file: alias an `Indexer` over the prefix via
`mmapIndexer`, then read `el := ReadInt()` and `el` key/value entries.  As
with `mmapIndexer`, no error value is ever produced by the source; `none`
models the Go runtime panic on a truncated buffer. -/
def Mmap (b : Bytes) : Option CHD :=
  match mmapIndexer ⟨b, 0⟩ with
  | none => none
  | some (idx, bi) =>
    match bi.ReadInt with
    | none => none
    | some (el, bi) =>
      match readPairs el bi with
      | none => none
      | some (ks, vs, _) => some ⟨idx, ks, vs⟩

/-- `Read` from the table source file: `ioutil.ReadAll` the stream into a
byte string, then delegate to `Mmap`.  A stream that successfully yields the
byte string `b` therefore gives exactly `Mmap b`. -/
def Read (b : Bytes) : Option CHD := Mmap b

/-- The spec's own words for the Indexer block (§6):
`u32 rLen | u64[rLen] | u32 indicesLen | u16[indicesLen]`, little-endian. -/
def specIndexerBlock (c : Indexer) : Bytes :=
  enc 4 c.r.length ++ c.r.flatMap (enc 8) ++
    enc 4 c.indices.length ++ c.indices.flatMap (enc 2)

/-- The spec's own words for the Table block (§6):
`<Indexer block> | u32 n | { u32 keyLen, u32 valLen, key bytes, value bytes } × n`. -/
def specTableBlock (c : CHD) : Bytes :=
  specIndexerBlock c.Indexer ++ enc 4 c.keys.length ++
    (c.keys.zip c.values).flatMap
      (fun p => enc 4 p.1.length ++ enc 4 p.2.length ++ p.1 ++ p.2)

/-! ## The builder, modelled from the spec (§4.2)

The builder's source file is not among the given sources; only its callers
(the tests) are.  The definitions below follow the spec's §4.2 step by step.
The spec leaves the bucket count, the primary seed and the fresh displacement
seeds to the implementer ("a configurable ratio", "freshly generated seeds",
bounded retries), so they are parameters here: `m` is the bucket count, `r0`
the primary seed, `fresh` the bounded supply of candidate displacement seeds.
-/

/-- Modelled from the spec (§4.2 step 2): the bucket of a key,
`(hash(key) XOR r[0]) mod m`. -/
def bucketOf (r0 m : Nat) (key : Bytes) : Nat :=
  (hasher key ^^^ r0) % m

/-- Modelled from the spec (§4.2 step 4 with §4.3's `h`): the final slot of a
key under displacement seed `seed`, `(h XOR seed) mod n` where
`h = hash(key) XOR r[0]` — the same expression `Indexer.Get` evaluates on the
non-sentinel path, which §3's invariant requires to be collision-free. -/
def slotOf (r0 seed n : Nat) (key : Bytes) : Nat :=
  ((hasher key ^^^ r0) ^^^ seed) % n

/-- Modelled from the spec (§4.2 step 4): seed `seed` works for bucket keys
`ks` when every key's slot is distinct from the other keys' target slots in
this bucket and not already occupied. -/
def seedOk (r0 n : Nat) (occ : List Nat) (ks : List Bytes) (seed : Nat) : Prop :=
  (ks.map (slotOf r0 seed n)).Nodup ∧ ∀ k ∈ ks, slotOf r0 seed n k ∉ occ

instance (r0 n : Nat) (occ : List Nat) (ks : List Bytes) (seed : Nat) :
    Decidable (seedOk r0 n occ ks seed) := by
  unfold seedOk; exact inferInstance

/-- Modelled from the spec (§4.2 step 4): scan a list of candidate selector
indices into the existing table `r`, returning the first whose seed works. -/
def firstOk (r0 n : Nat) (occ : List Nat) (ks : List Bytes) (r : List Nat) :
    List Nat → Option Nat
  | [] => none
  | ri :: rest =>
    if seedOk r0 n occ ks (r.getD ri 0) then some ri
    else firstOk r0 n occ ks r rest

/-- Modelled from the spec (§4.2 step 4): grow `r` by trying freshly
generated seeds, appending the first that works; give up when the supply
(the bounded retry budget) is exhausted, or when appending would exceed the
spec's hard ceiling of 65535 hash functions (§3: selectors are 16-bit with
`0xFFFF` reserved as the sentinel). -/
def growSeeds (r0 n : Nat) (occ : List Nat) (ks : List Bytes) (r : List Nat) :
    List Nat → Option (List Nat × Nat)
  | [] => none
  | s :: rest =>
    if 65535 ≤ r.length then none
    else if seedOk r0 n occ ks s then some (r ++ [s], r.length)
    else growSeeds r0 n occ ks r rest

/-- Modelled from the spec (§4.2 step 4): search over the candidate
displacement table — the existing entries `r[1..]` first, then fresh seeds —
for a selector `ri` whose seed places all of the bucket's keys. -/
def searchSeed (r0 n : Nat) (occ : List Nat) (ks : List Bytes) (r : List Nat)
    (fresh : List Nat) : Option (List Nat × Nat) :=
  match firstOk r0 n occ ks r ((List.range r.length).drop 1) with
  | some ri => some (r, ri)
  | none => growSeeds r0 n occ ks r fresh

/-- Modelled from the spec (§4.2 steps 4-5): process the non-empty buckets in
order; on success record `indices[b] = ri` and mark the bucket's slots
occupied, on exhaustion report construction failure (`none`). -/
def placeBuckets (r0 n : Nat) (fresh : List Nat) :
    List (Nat × List Bytes) → List Nat → List Nat → List Nat →
    Option (List Nat × List Nat × List Nat)
  | [], r, indices, occ => some (r, indices, occ)
  | (b, ks) :: rest, r, indices, occ =>
    match searchSeed r0 n occ ks r fresh with
    | none => none
    | some (r2, ri) =>
      placeBuckets r0 n fresh rest r2 (indices.set b ri)
        (occ ++ ks.map (slotOf r0 (r2.getD ri 0) n))

/-- The slot a finished `(r, indices)` pair sends a key to, written as a
total function: `h := hash(key) XOR r[0]`, selector `indices[h mod
len(indices)]`, slot `(h XOR r[selector]) mod n`.  This is the value
`Indexer.Get` returns on its non-sentinel, non-panicking path. -/
def finSlot (r0 n : Nat) (r indices : List Nat) (key : Bytes) : Nat :=
  let h := hasher key ^^^ r0
  (h ^^^ r.getD (indices.getD (h % indices.length) 0) 0) % n

/-- Modelled from the spec (§4.2 step 2): the keys of bucket `b`, in input
order. -/
def bucketKeys (pairs : List (Bytes × Bytes)) (m r0 b : Nat) : List Bytes :=
  (pairs.filter (fun p => bucketOf r0 m p.1 == b)).map Prod.fst

/-- Modelled from the spec (§4.2 step 3): the bucket ids `0..m-1` sorted by
descending population — "largest first". -/
def orderedBuckets (pairs : List (Bytes × Bytes)) (m r0 : Nat) : List Nat :=
  List.insertionSort
    (fun a b => (bucketKeys pairs m r0 b).length ≤ (bucketKeys pairs m r0 a).length)
    (List.range m)

/-- Modelled from the spec (§4.2 steps 3-5): the non-empty buckets, paired
with their keys, in processing order. -/
def buildBuckets (pairs : List (Bytes × Bytes)) (m r0 : Nat) : List (Nat × List Bytes) :=
  ((orderedBuckets pairs m r0).map (fun b => (b, bucketKeys pairs m r0 b))).filter
    (fun x => !x.2.isEmpty)

/-- Modelled from the spec (§4.2): `Build`.  Steps: `n :=` number of keys;
`n = 0` yields the empty table (empty `r`/`indices`, empty key/value
arrays); otherwise bucket every pair by `bucketOf`, sort buckets by
descending population (largest first), run the displacement search, give
every empty bucket the sentinel `0xFFFF` (the initial value of `indices`),
and assemble `keys[slot] = key`, `values[slot] = value` (unused slots, which
cannot occur for a perfect assignment, are left empty). -/
def Build (pairs : List (Bytes × Bytes)) (m r0 : Nat) (fresh : List Nat) :
    Option CHD :=
  if pairs.length = 0 then some ⟨⟨[], []⟩, [], []⟩
  else if m = 0 then none
  else
    match placeBuckets r0 pairs.length fresh (buildBuckets pairs m r0) [r0]
        (List.replicate m 65535) [] with
    | none => none
    | some (r, indices, _) =>
      some ⟨⟨r, indices⟩,
        (List.range pairs.length).map (fun s =>
          match pairs.find? (fun p => finSlot r0 pairs.length r indices p.1 == s) with
          | some p => p.1
          | none => []),
        (List.range pairs.length).map (fun s =>
          match pairs.find? (fun p => finSlot r0 pairs.length r indices p.1 == s) with
          | some p => p.2
          | none => [])⟩

end Mph

namespace Mph

/-! ## Basic facts about the hasher -/

theorem hasher_lt_aux (l : Bytes) (init : Nat) (h : init < 2 ^ 64) :
    l.foldl (fun hash c => ((hash ^^^ c) * fnvPrime) % 2 ^ 64) init < 2 ^ 64 := by
  induction l generalizing init with
  | nil => simpa using h
  | cons b t ih =>
    simp only [List.foldl_cons]
    exact ih _ (Nat.mod_lt _ (by norm_num))

theorem hasher_lt (data : Bytes) : hasher data < 2 ^ 64 :=
  hasher_lt_aux data fnvBasis (by norm_num [fnvBasis])

theorem hasher_append_byte (bs : Bytes) (b : Nat) :
    hasher (bs ++ [b]) = ((hasher bs ^^^ b) * fnvPrime) % 2 ^ 64 := by
  simp [hasher, List.foldl_append]

/-! ## Encoding and decoding lemmas -/

theorem enc_length (w x : Nat) : (enc w x).length = w := by
  induction w generalizing x with
  | zero => simp [enc]
  | succ w ih => simp [enc, ih]

theorem dec_enc (w x : Nat) : dec (enc w x) = x % 256 ^ w := by
  induction w generalizing x with
  | zero => simp [enc, dec, Nat.mod_one]
  | succ w ih =>
    simp only [enc, dec, ih]
    have hp : (256 : Nat) ^ (w + 1) = 256 * 256 ^ w := by ring
    rw [hp, Nat.mod_mul]

theorem flatMap_enc_length (w : Nat) (l : List Nat) :
    (l.flatMap (enc w)).length = w * l.length := by
  induction l with
  | nil => simp
  | cons a t ih =>
    simp [List.flatMap_cons, enc_length, ih, Nat.mul_succ]
    omega

theorem decChunks_flatMap (w : Nat) (l : List Nat) (h : ∀ x ∈ l, x < 256 ^ w) :
    decChunks w l.length (l.flatMap (enc w)) = l := by
  induction l with
  | nil => simp [decChunks]
  | cons a t ih =>
    simp only [List.flatMap_cons, List.length_cons, decChunks]
    rw [List.take_left' (enc_length w a), List.drop_left' (enc_length w a), dec_enc,
      Nat.mod_eq_of_lt (h a (by simp)), ih (fun x hx => h x (by simp [hx]))]

/-! ## Cursor stepping lemmas -/

theorem read_at (full pre mid post : Bytes) (p : Nat)
    (hfull : full = pre ++ mid ++ post) (hp : p = pre.length) :
    sliceReader.Read ⟨full, p⟩ mid.length = some (mid, ⟨full, p + mid.length⟩) := by
  subst hfull; subst hp
  unfold sliceReader.Read
  rw [if_pos (by simp only [List.length_append]; omega)]
  rw [List.append_assoc, List.drop_left, List.take_left]

theorem readInt_at (full pre post : Bytes) (x p : Nat) (hx : x < 2 ^ 32)
    (hfull : full = pre ++ enc 4 x ++ post) (hp : p = pre.length) :
    sliceReader.ReadInt ⟨full, p⟩ = some (x, ⟨full, p + 4⟩) := by
  have hr := read_at full pre (enc 4 x) post p hfull hp
  rw [enc_length] at hr
  unfold sliceReader.ReadInt
  rw [hr]
  show some (dec (enc 4 x), sliceReader.mk full (p + 4)) = some (x, sliceReader.mk full (p + 4))
  rw [dec_enc, Nat.mod_eq_of_lt (by norm_num at hx ⊢; omega)]

theorem readUint64Array_at (full pre post : Bytes) (l : List Nat) (p : Nat)
    (hl : ∀ x ∈ l, x < 2 ^ 64)
    (hfull : full = pre ++ l.flatMap (enc 8) ++ post) (hp : p = pre.length) :
    sliceReader.ReadUint64Array ⟨full, p⟩ l.length =
      some (l, ⟨full, p + 8 * l.length⟩) := by
  have hr := read_at full pre (l.flatMap (enc 8)) post p hfull hp
  rw [flatMap_enc_length] at hr
  unfold sliceReader.ReadUint64Array
  rw [hr]
  show some (decChunks 8 l.length (l.flatMap (enc 8)), sliceReader.mk full (p + 8 * l.length)) =
    some (l, sliceReader.mk full (p + 8 * l.length))
  rw [decChunks_flatMap 8 l (by intro x hx; have := hl x hx; norm_num at this ⊢; omega)]

theorem readUint16Array_at (full pre post : Bytes) (l : List Nat) (p : Nat)
    (hl : ∀ x ∈ l, x < 2 ^ 16)
    (hfull : full = pre ++ l.flatMap (enc 2) ++ post) (hp : p = pre.length) :
    sliceReader.ReadUint16Array ⟨full, p⟩ l.length =
      some (l, ⟨full, p + 2 * l.length⟩) := by
  have hr := read_at full pre (l.flatMap (enc 2)) post p hfull hp
  rw [flatMap_enc_length] at hr
  unfold sliceReader.ReadUint16Array
  rw [hr]
  show some (decChunks 2 l.length (l.flatMap (enc 2)), sliceReader.mk full (p + 2 * l.length)) =
    some (l, sliceReader.mk full (p + 2 * l.length))
  rw [decChunks_flatMap 2 l (by intro x hx; have := hl x hx; norm_num at this ⊢; omega)]

theorem mmapIndexer_at (ix : Indexer) (post full : Bytes)
    (h1 : ix.r.length < 2 ^ 32) (h2 : ∀ x ∈ ix.r, x < 2 ^ 64)
    (h3 : ix.indices.length < 2 ^ 32) (h4 : ∀ x ∈ ix.indices, x < 2 ^ 16)
    (hfull : full = ix.Write ++ post) :
    mmapIndexer ⟨full, 0⟩ = some (ix, ⟨full, ix.Write.length⟩) := by
  obtain ⟨r, indices⟩ := ix
  simp only [Indexer.Write] at hfull h1 h2 h3 h4 ⊢
  have e1 : sliceReader.ReadInt ⟨full, 0⟩ = some (r.length, ⟨full, 0 + 4⟩) :=
    readInt_at full []
      (r.flatMap (enc 8) ++ enc 4 indices.length ++ indices.flatMap (enc 2) ++ post)
      r.length 0 h1 (by simp [hfull, List.append_assoc]) rfl
  have e2 : sliceReader.ReadUint64Array ⟨full, 0 + 4⟩ r.length =
      some (r, ⟨full, 0 + 4 + 8 * r.length⟩) :=
    readUint64Array_at full (enc 4 r.length)
      (enc 4 indices.length ++ indices.flatMap (enc 2) ++ post) r (0 + 4) h2
      (by simp [hfull, List.append_assoc]) (by simp [enc_length])
  have e3 : sliceReader.ReadInt ⟨full, 0 + 4 + 8 * r.length⟩ =
      some (indices.length, ⟨full, 0 + 4 + 8 * r.length + 4⟩) :=
    readInt_at full (enc 4 r.length ++ r.flatMap (enc 8))
      (indices.flatMap (enc 2) ++ post) indices.length (0 + 4 + 8 * r.length) h3
      (by simp [hfull, List.append_assoc])
      (by simp only [List.length_append, enc_length, flatMap_enc_length])
  have e4 : sliceReader.ReadUint16Array ⟨full, 0 + 4 + 8 * r.length + 4⟩ indices.length =
      some (indices, ⟨full, 0 + 4 + 8 * r.length + 4 + 2 * indices.length⟩) :=
    readUint16Array_at full (enc 4 r.length ++ r.flatMap (enc 8) ++ enc 4 indices.length)
      post indices (0 + 4 + 8 * r.length + 4) h4
      (by simp [hfull, List.append_assoc])
      (by simp only [List.length_append, enc_length, flatMap_enc_length])
  simp only [mmapIndexer, e1, e2, e3, e4]
  simp only [List.length_append, enc_length, flatMap_enc_length, Option.some.injEq,
    Prod.mk.injEq, sliceReader.mk.injEq]

theorem entriesBytes_eq (ks vs : List Bytes) (h : vs.length = ks.length) :
    entriesBytes ks vs =
      some ((ks.zip vs).flatMap
        (fun p => enc 4 p.1.length ++ enc 4 p.2.length ++ p.1 ++ p.2)) := by
  induction ks generalizing vs with
  | nil => simp [entriesBytes]
  | cons k kt ih =>
    cases vs with
    | nil => simp at h
    | cons v vt =>
      have h' : vt.length = kt.length := by simpa using h
      simp only [entriesBytes, ih vt h', List.zip_cons_cons, List.flatMap_cons,
        List.append_assoc]

theorem readPairs_at (ks : List Bytes) :
    ∀ (vs : List Bytes) (full pre post e : Bytes) (p : Nat),
    vs.length = ks.length →
    (∀ k ∈ ks, k.length < 2 ^ 32) → (∀ v ∈ vs, v.length < 2 ^ 32) →
    entriesBytes ks vs = some e →
    full = pre ++ e ++ post → p = pre.length →
    ∃ br, readPairs ks.length ⟨full, p⟩ = some (ks, vs, br) := by
  induction ks with
  | nil =>
    intro vs full pre post e p hlen _ _ _ _ _
    cases vs with
    | nil => exact ⟨⟨full, p⟩, rfl⟩
    | cons v vt => simp at hlen
  | cons k kt ih =>
    intro vs full pre post e p hlen hks hvs he hfull hp
    cases vs with
    | nil => simp at hlen
    | cons v vt =>
      have hlen' : vt.length = kt.length := by simpa using hlen
      cases hrest : entriesBytes kt vt with
      | none => rw [entriesBytes, hrest] at he; cases he
      | some rest =>
        rw [entriesBytes, hrest] at he
        injection he with he
        have e1 : sliceReader.ReadInt ⟨full, p⟩ = some (k.length, ⟨full, p + 4⟩) :=
          readInt_at full pre (enc 4 v.length ++ k ++ v ++ rest ++ post) k.length p
            (hks k (by simp)) (by simp [hfull, ← he, List.append_assoc]) hp
        have e2 : sliceReader.ReadInt ⟨full, p + 4⟩ =
            some (v.length, ⟨full, p + 4 + 4⟩) :=
          readInt_at full (pre ++ enc 4 k.length) (k ++ v ++ rest ++ post) v.length
            (p + 4) (hvs v (by simp))
            (by simp [hfull, ← he, List.append_assoc])
            (by simp only [List.length_append, enc_length, hp])
        have e3 : sliceReader.Read ⟨full, p + 4 + 4⟩ k.length =
            some (k, ⟨full, p + 4 + 4 + k.length⟩) :=
          read_at full (pre ++ enc 4 k.length ++ enc 4 v.length) k (v ++ rest ++ post)
            (p + 4 + 4)
            (by simp [hfull, ← he, List.append_assoc])
            (by simp only [List.length_append, enc_length, hp])
        have e4 : sliceReader.Read ⟨full, p + 4 + 4 + k.length⟩ v.length =
            some (v, ⟨full, p + 4 + 4 + k.length + v.length⟩) :=
          read_at full (pre ++ enc 4 k.length ++ enc 4 v.length ++ k) v (rest ++ post)
            (p + 4 + 4 + k.length)
            (by simp [hfull, ← he, List.append_assoc])
            (by simp only [List.length_append, enc_length, hp])
        obtain ⟨br, hbr⟩ := ih vt full
          (pre ++ enc 4 k.length ++ enc 4 v.length ++ k ++ v) post rest
          (p + 4 + 4 + k.length + v.length) hlen'
          (fun x hx => hks x (by simp [hx])) (fun x hx => hvs x (by simp [hx]))
          hrest
          (by simp [hfull, ← he, List.append_assoc])
          (by simp only [List.length_append, enc_length, hp])
        refine ⟨br, ?_⟩
        simp only [List.length_cons, readPairs, e1, e2, e3, e4, hbr]

/-! ## Claim C1: write/read round trip -/

/-- C1: serializing a well-formed table with `CHD.Write` and deserializing
the produced byte string with `Mmap` (equivalently `Read`) succeeds and
yields a table `c'` with the same `r`, the same `indices` and the same `Get`
behaviour on every key (indeed the identical table).  The hypotheses are the
machine-width side conditions of the format: all lengths fit in the `u32`
length fields, `r` entries are `uint64` values and `indices` entries are
`uint16` values, and the key and value arrays are parallel. -/
theorem write_mmap_roundtrip (c : CHD)
    (hlv : c.values.length = c.keys.length)
    (h1 : c.Indexer.r.length < 2 ^ 32) (h2 : ∀ x ∈ c.Indexer.r, x < 2 ^ 64)
    (h3 : c.Indexer.indices.length < 2 ^ 32) (h4 : ∀ x ∈ c.Indexer.indices, x < 2 ^ 16)
    (h5 : c.keys.length < 2 ^ 32)
    (h6 : ∀ k ∈ c.keys, k.length < 2 ^ 32) (h7 : ∀ v ∈ c.values, v.length < 2 ^ 32) :
    ∃ bs c', c.Write = some bs ∧ Mmap bs = some c' ∧
      c'.Indexer.r = c.Indexer.r ∧ c'.Indexer.indices = c.Indexer.indices ∧
      ∀ key, c'.Get key = c.Get key := by
  obtain ⟨ix, ks, vs⟩ := c
  simp only at hlv h1 h2 h3 h4 h5 h6 h7
  obtain ⟨E, hE⟩ : ∃ E, entriesBytes ks vs = some E := ⟨_, entriesBytes_eq ks vs hlv⟩
  refine ⟨ix.Write ++ enc 4 ks.length ++ E, ⟨ix, ks, vs⟩, ?_, ?_, rfl, rfl, fun _ => rfl⟩
  · simp only [CHD.Write, hE, Indexer.Write, List.append_assoc]
  · have em := mmapIndexer_at ix (enc 4 ks.length ++ E)
      (ix.Write ++ enc 4 ks.length ++ E) h1 h2 h3 h4 (by simp [List.append_assoc])
    have en : sliceReader.ReadInt ⟨ix.Write ++ enc 4 ks.length ++ E, ix.Write.length⟩ =
        some (ks.length, ⟨ix.Write ++ enc 4 ks.length ++ E, ix.Write.length + 4⟩) :=
      readInt_at (ix.Write ++ enc 4 ks.length ++ E) ix.Write E ks.length
        ix.Write.length h5 rfl rfl
    obtain ⟨br, hbr⟩ := readPairs_at ks vs (ix.Write ++ enc 4 ks.length ++ E)
      (ix.Write ++ enc 4 ks.length) [] E (ix.Write.length + 4) hlv h6 h7 hE
      (by simp [List.append_assoc]) (by simp [List.length_append, enc_length])
    simp only [Mmap, em, en, hbr]

/-! ## Claim C8: exact byte layout -/

/-- C8: `Indexer.Write` emits exactly the spec's Indexer block
`u32 rLen | u64[rLen] | u32 indicesLen | u16[indicesLen]`, and `CHD.Write`
emits exactly that Indexer block followed by `u32 n` and the per-slot
`u32 keyLen | u32 valLen | key | value` records, with no padding, separator,
checksum or version tag (the blocks are plain concatenations). -/
theorem write_matches_spec_layout :
    (∀ ix : Indexer, ix.Write = specIndexerBlock ix) ∧
    (∀ c : CHD, c.values.length = c.keys.length →
      c.Write = some (specTableBlock c)) := by
  refine ⟨fun ix => rfl, fun c h => ?_⟩
  simp only [CHD.Write, entriesBytes_eq c.keys c.values h, specTableBlock,
    specIndexerBlock, Indexer.Write, List.append_assoc]

/-- Witness for C8 at a concrete one-entry table. -/
theorem write_matches_spec_layout_witness :
    (CHD.mk ⟨[5], [0]⟩ [[107]] [[118]]).values.length =
      (CHD.mk ⟨[5], [0]⟩ [[107]] [[118]]).keys.length ∧
    (CHD.mk ⟨[5], [0]⟩ [[107]] [[118]]).Write =
      some (specTableBlock (CHD.mk ⟨[5], [0]⟩ [[107]] [[118]])) :=
  ⟨rfl, write_matches_spec_layout.2 (CHD.mk ⟨[5], [0]⟩ [[107]] [[118]]) rfl⟩

/-! ## Claim C9: the copying and aliasing deserialization paths agree -/

/-- C9: `Read` on a stream that yields a byte string is exactly `Mmap` on
that byte string, and `ReadIndexer` is exactly `MmapIndexer`: the source
functions read the whole stream into memory and delegate. -/
theorem read_delegates_to_mmap :
    (∀ b : Bytes, Read b = Mmap b) ∧ (∀ b : Bytes, ReadIndexer b = MmapIndexer b) :=
  ⟨fun _ => rfl, fun _ => rfl⟩

/-! ## Claim C5: truncated input -/

/-- C5 (refuting the claim): on truncated input the deserializers do NOT
report a decode error — `mmapIndexer` returns a `nil` error unconditionally,
so the only possible outcomes are success or the Go runtime panic raised by
the out-of-bounds slice inside the cursor (`none` here).  At the empty byte
string, and at `[2,0,0,0]` (a length prefix announcing 2 `uint64` entries
with no bytes behind it), `Mmap` and `MmapIndexer` panic. -/
theorem mmap_truncated_panics :
    Mmap [] = none ∧ Mmap [2, 0, 0, 0] = none ∧
    MmapIndexer [] = none ∧ MmapIndexer [2, 0, 0, 0] = none := by
  refine ⟨rfl, ?_, rfl, ?_⟩ <;> decide

/-- C7: `hasher` is exactly 64-bit FNV-1a: it is a pure function of the input
bytes, starts at the FNV offset basis `14695981039346656037`, and for each
byte XORs the byte into the accumulator and multiplies by the FNV prime
`1099511628211` with unsigned 64-bit wraparound; the accumulator always stays
below `2^64`. -/
theorem hasher_is_fnv1a :
    hasher [] = 14695981039346656037 ∧
    (∀ bs b, hasher (bs ++ [b]) = ((hasher bs ^^^ b) * 1099511628211) % 2 ^ 64) ∧
    (∀ bs, hasher bs < 2 ^ 64) :=
  ⟨rfl, fun bs b => hasher_append_byte bs b, hasher_lt⟩

/-- Witness for C1 at a concrete one-entry table. -/
theorem write_mmap_roundtrip_witness :
    ∃ bs c', (CHD.mk ⟨[7, 9], [1]⟩ [[107]] [[118]]).Write = some bs ∧
      Mmap bs = some c' ∧
      c'.Indexer.r = (CHD.mk ⟨[7, 9], [1]⟩ [[107]] [[118]]).Indexer.r ∧
      c'.Indexer.indices = (CHD.mk ⟨[7, 9], [1]⟩ [[107]] [[118]]).Indexer.indices ∧
      ∀ key, c'.Get key = (CHD.mk ⟨[7, 9], [1]⟩ [[107]] [[118]]).Get key :=
  write_mmap_roundtrip (CHD.mk ⟨[7, 9], [1]⟩ [[107]] [[118]]) rfl (by decide)
    (by decide) (by decide) (by decide) (by decide) (by decide) (by decide)

/-! ## Analysis of `Indexer.Get` -/

/-- The full behaviour of `Indexer.Get` on a non-degenerate call: nonempty
`r`, nonempty `indices`, `numKeys ≠ 0`. -/
theorem indexerGet_eq (r0 : Nat) (rt ind : List Nat) (key : Bytes) (numKeys : Nat)
    (hind : ind ≠ []) (hnk : numKeys ≠ 0) :
    Indexer.Get ⟨r0 :: rt, ind⟩ key numKeys =
      some (if (r0 :: rt).length % 65536 ≤
          ind.getD ((hasher key ^^^ r0) % ind.length) 0 then 0
        else (hasher key ^^^ r0 ^^^
          (r0 :: rt).getD (ind.getD ((hasher key ^^^ r0) % ind.length) 0) 0) % numKeys) := by
  have hlen : ind.length ≠ 0 := by simpa using hind
  have hi : (hasher key ^^^ r0) % ind.length < ind.length :=
    Nat.mod_lt _ (Nat.pos_of_ne_zero hlen)
  unfold Indexer.Get
  simp only [List.head?_cons]
  rw [dif_neg hlen]
  have hget : ind.get ⟨(hasher key ^^^ r0) % ind.length, hi⟩ =
      ind.getD ((hasher key ^^^ r0) % ind.length) 0 := by
    rw [List.get_eq_getElem, List.getD_eq_getElem _ 0 hi]
  by_cases hs : (r0 :: rt).length % 65536 ≤
      ind.getD ((hasher key ^^^ r0) % ind.length) 0
  · rw [dif_pos (by rw [hget]; exact hs), if_pos hs]
  · rw [dif_neg (by rw [hget]; exact hs), dif_neg hnk, if_neg hs]
    have hri : ind.getD ((hasher key ^^^ r0) % ind.length) 0 < (r0 :: rt).length := by
      have := Nat.mod_le (r0 :: rt).length 65536
      omega
    simp only [List.get_eq_getElem, hget, List.getD_eq_getElem _ 0 hri,
      ← List.getD_eq_getElem ind 0 hi]

/-- Under the same non-degeneracy conditions, `Indexer.Get` returns a slot
strictly below `numKeys`. -/
theorem indexerGet_some_lt (c : Indexer) (key : Bytes) (numKeys : Nat)
    (hr : c.r ≠ []) (hind : c.indices ≠ []) (hnk : 1 ≤ numKeys) :
    ∃ slot, c.Get key numKeys = some slot ∧ slot < numKeys := by
  obtain ⟨r0, rt, ind, rfl⟩ : ∃ r0 rt ind, c = ⟨r0 :: rt, ind⟩ := by
    obtain ⟨r, ind⟩ := c
    cases r with
    | nil => simp at hr
    | cons r0 rt => exact ⟨r0, rt, ind, rfl⟩
  rw [indexerGet_eq r0 rt ind key numKeys hind (by omega)]
  refine ⟨_, rfl, ?_⟩
  split
  · omega
  · exact Nat.mod_lt _ (by omega)

/-- The full behaviour of `CHD.Get` on a non-degenerate table: the slot is in
bounds and the result is `values[slot]` exactly when `keys[slot]` equals the
queried key, `nil` otherwise. -/
theorem chdGet_eq (c : CHD) (key : Bytes)
    (hr : c.Indexer.r ≠ []) (hind : c.Indexer.indices ≠ [])
    (hk : 1 ≤ c.keys.length) (hv : c.values.length = c.keys.length) :
    ∃ slot, c.Indexer.Get key c.keys.length = some slot ∧ slot < c.keys.length ∧
      c.Get key = some (if c.keys.getD slot [] = key
        then some (c.values.getD slot []) else none) := by
  obtain ⟨slot, hget, hlt⟩ := indexerGet_some_lt c.Indexer key c.keys.length hr hind hk
  refine ⟨slot, hget, hlt, ?_⟩
  have hkey : c.keys.get? slot = some (c.keys.getD slot []) := by
    rw [List.get?_eq_getElem?, List.getElem?_eq_getElem hlt, List.getD_eq_getElem _ [] hlt]
  have hlt' : slot < c.values.length := by omega
  have hval : c.values.get? slot = some (c.values.getD slot []) := by
    rw [List.get?_eq_getElem?, List.getElem?_eq_getElem hlt', List.getD_eq_getElem _ [] hlt']
  unfold CHD.Get
  simp only [hget, hkey]
  by_cases heq : c.keys.getD slot [] = key
  · rw [if_pos heq, if_pos heq]
    simp only [hval]
  · rw [if_neg heq, if_neg heq]

/-! ## Claim C4: the `Indexer.Get` computation -/

/-- C4 (counterexample to the claim as stated): the claim says `Indexer.Get`
"never fails", for every Indexer; but on the Indexer with empty `r` (the
empty table's indexer) the source evaluates `c.r[0]`, a Go index out of
range, and panics instead of returning a slot. -/
theorem indexer_get_empty_counterexample : Indexer.Get ⟨[], []⟩ [] 1 = none := rfl

/-- C4 (amended): for every Indexer with nonempty `r` and nonempty `indices`
and every `numKeys ≥ 1`, `Indexer.Get` computes `h = hash(key) XOR r[0]`,
`i = h mod len(indices)`, `ri = indices[i]`; it returns `0` whenever
`ri ≥ len(r) mod 2^16` (the source compares against the truncating cast
`uint16(len(c.r))`, which is `len(r)` itself whenever `len(r) ≤ 65535`),
and otherwise returns `(h XOR r[ri]) mod numKeys`; under these hypotheses it
never fails.  It does fail — Go panic — when `r` or `indices` is empty or
`numKeys = 0`. -/
theorem indexer_get_formula (ix : Indexer) (key : Bytes) (numKeys : Nat)
    (hr : ix.r ≠ []) (hind : ix.indices ≠ []) (hnk : 1 ≤ numKeys) :
    ix.Get key numKeys =
      some (if ix.r.length % 65536 ≤
          ix.indices.getD ((hasher key ^^^ ix.r.headD 0) % ix.indices.length) 0 then 0
        else (hasher key ^^^ ix.r.headD 0 ^^^
          ix.r.getD (ix.indices.getD
            ((hasher key ^^^ ix.r.headD 0) % ix.indices.length) 0) 0) % numKeys) := by
  obtain ⟨r0, rt, ind, rfl⟩ : ∃ r0 rt ind, ix = ⟨r0 :: rt, ind⟩ := by
    obtain ⟨r, ind⟩ := ix
    cases r with
    | nil => simp at hr
    | cons r0 rt => exact ⟨r0, rt, ind, rfl⟩
  simpa using indexerGet_eq r0 rt ind key numKeys hind (by omega)

/-- Witness for C4's amended theorem at a concrete indexer. -/
theorem indexer_get_formula_witness :
    Indexer.Get ⟨[3, 5], [1]⟩ [7] 4 =
      some (if ([3, 5] : List Nat).length % 65536 ≤
          ([1] : List Nat).getD ((hasher [7] ^^^ ([3, 5] : List Nat).headD 0) % ([1] : List Nat).length) 0 then 0
        else (hasher [7] ^^^ ([3, 5] : List Nat).headD 0 ^^^
          ([3, 5] : List Nat).getD (([1] : List Nat).getD
            ((hasher [7] ^^^ ([3, 5] : List Nat).headD 0) % ([1] : List Nat).length) 0) 0) % 4) :=
  indexer_get_formula ⟨[3, 5], [1]⟩ [7] 4 (by decide) (by decide) (by decide)

/-! ## Claim C10: slots are in bounds -/

/-- C10: for every Indexer with nonempty `r` and nonempty `indices` and every
`numKeys ≥ 1`, the slot `Indexer.Get` returns is strictly below `numKeys`
(the sentinel path returns `0`, the normal path reduces mod `numKeys`);
consequently for a table over such an indexer with at least one key (and the
parallel-array invariant), the accesses `keys[slot]` and `values[slot]`
inside `CHD.Get` are in bounds: the lookup returns a value, never a panic. -/
theorem get_slot_in_bounds :
    (∀ (ix : Indexer) (key : Bytes) (numKeys : Nat), ix.r ≠ [] → ix.indices ≠ [] →
      1 ≤ numKeys → ∃ slot, ix.Get key numKeys = some slot ∧ slot < numKeys) ∧
    (∀ (c : CHD) (key : Bytes), c.Indexer.r ≠ [] → c.Indexer.indices ≠ [] →
      1 ≤ c.keys.length → c.values.length = c.keys.length →
      ∃ slot, c.Indexer.Get key c.keys.length = some slot ∧ slot < c.keys.length ∧
        ∃ res, c.Get key = some res) := by
  refine ⟨fun ix key numKeys hr hind hnk => indexerGet_some_lt ix key numKeys hr hind hnk,
    fun c key hr hind hk hv => ?_⟩
  obtain ⟨slot, hget, hlt, heq⟩ := chdGet_eq c key hr hind hk hv
  exact ⟨slot, hget, hlt, _, heq⟩

/-- Witness for C10 at a concrete indexer and a concrete one-entry table. -/
theorem get_slot_in_bounds_witness :
    (∃ slot, Indexer.Get ⟨[3, 5], [1]⟩ [7] 2 = some slot ∧ slot < 2) ∧
    (∃ slot, Indexer.Get ⟨[3, 5], [1]⟩ [9]
        (CHD.mk ⟨[3, 5], [1]⟩ [[9]] [[8]]).keys.length = some slot ∧
      slot < (CHD.mk ⟨[3, 5], [1]⟩ [[9]] [[8]]).keys.length ∧
      ∃ res, (CHD.mk ⟨[3, 5], [1]⟩ [[9]] [[8]]).Get [9] = some res) :=
  ⟨get_slot_in_bounds.1 ⟨[3, 5], [1]⟩ [7] 2 (by decide) (by decide) (by decide),
    get_slot_in_bounds.2 (CHD.mk ⟨[3, 5], [1]⟩ [[9]] [[8]]) [9] (by decide) (by decide)
      (by decide) (by decide)⟩

/-! ## Claim C3: `CHD.Get` checks the stored key -/

/-- C3 (counterexample to the claim as stated): the claim quantifies over
every table and says lookups that miss return absent (`nil`, here
`some none`); but on the empty table (a table the spec itself produces for
`Build([])`) `CHD.Get` panics — `Indexer.Get` evaluates `c.r[0]` on an empty
`r` — instead of returning absent. -/
theorem table_get_empty_counterexample :
    CHD.Get ⟨⟨[], []⟩, [], []⟩ [0] ≠ some none := by decide

/-- C3 (amended): for every table with at least one key, parallel key/value
arrays and a non-degenerate indexer (nonempty `r` and `indices`), `CHD.Get`
returns `values[slot]` for `slot = Indexer.Get(key, len(keys))` exactly when
`keys[slot]` byte-equals the queried key, and `nil` otherwise; in particular
any key not among the stored keys gets `nil`. -/
theorem table_get_checks_key (c : CHD) (key : Bytes)
    (hr : c.Indexer.r ≠ []) (hind : c.Indexer.indices ≠ [])
    (hk : 1 ≤ c.keys.length) (hv : c.values.length = c.keys.length) :
    ∃ slot, c.Indexer.Get key c.keys.length = some slot ∧
      c.Get key = some (if c.keys.getD slot [] = key
        then some (c.values.getD slot []) else none) ∧
      (key ∉ c.keys → c.Get key = some none) := by
  obtain ⟨slot, hget, hlt, heq⟩ := chdGet_eq c key hr hind hk hv
  refine ⟨slot, hget, heq, fun hmem => ?_⟩
  rw [heq, if_neg ?_]
  intro hcontra
  apply hmem
  rw [← hcontra, List.getD_eq_getElem _ [] hlt]
  exact List.getElem_mem hlt

/-- Witness for C3's amended theorem at a concrete one-entry table, queried
with a key that is not stored. -/
theorem table_get_checks_key_witness :
    ∃ slot, Indexer.Get ⟨[3, 5], [1]⟩ [4]
        (CHD.mk ⟨[3, 5], [1]⟩ [[2]] [[6]]).keys.length = some slot ∧
      (CHD.mk ⟨[3, 5], [1]⟩ [[2]] [[6]]).Get [4] =
        some (if (CHD.mk ⟨[3, 5], [1]⟩ [[2]] [[6]]).keys.getD slot [] = [4]
          then some ((CHD.mk ⟨[3, 5], [1]⟩ [[2]] [[6]]).values.getD slot []) else none) ∧
      ([4] ∉ (CHD.mk ⟨[3, 5], [1]⟩ [[2]] [[6]]).keys →
        (CHD.mk ⟨[3, 5], [1]⟩ [[2]] [[6]]).Get [4] = some none) :=
  table_get_checks_key (CHD.mk ⟨[3, 5], [1]⟩ [[2]] [[6]]) [4] (by decide) (by decide)
    (by decide) (by decide)

/-! ## Claim C6: the empty table -/

/-- C6 (the code at the claim's input): `Build` of zero pairs succeeds and
produces the empty table — empty `r`, empty `indices`, empty key/value
arrays — exactly as the spec promises; but querying that table panics
(`c.r[0]` with empty `r`, then `h mod len(indices)` with length 0, then
`keys[slot]` on an empty array) instead of returning absent: the claim's
"Get(anything) returns absent, without failure" does not hold on the code. -/
theorem empty_table_get_panics :
    Build [] 1 0 [] = some ⟨⟨[], []⟩, [], []⟩ ∧
    CHD.Get ⟨⟨[], []⟩, [], []⟩ [97] = none := by
  refine ⟨?_, rfl⟩
  decide

/-! ## Soundness of the displacement search -/

theorem firstOk_sound (r0 n : Nat) (occ : List Nat) (ks : List Bytes) (r : List Nat) :
    ∀ (cands : List Nat) (ri : Nat), firstOk r0 n occ ks r cands = some ri →
    ri ∈ cands ∧ seedOk r0 n occ ks (r.getD ri 0) := by
  intro cands
  induction cands with
  | nil => intro ri h; cases h
  | cons c rest ih =>
    intro ri h
    rw [firstOk] at h
    split_ifs at h with hok
    · injection h with h
      subst h
      exact ⟨List.mem_cons_self c rest, hok⟩
    · obtain ⟨hmem, hsk⟩ := ih ri h
      exact ⟨List.mem_cons_of_mem c hmem, hsk⟩

theorem growSeeds_sound (r0 n : Nat) (occ : List Nat) (ks : List Bytes) :
    ∀ (fresh r r2 : List Nat) (ri : Nat),
    growSeeds r0 n occ ks r fresh = some (r2, ri) →
    (∃ s, r2 = r ++ [s] ∧ seedOk r0 n occ ks s) ∧ ri = r.length ∧ r.length ≤ 65534 := by
  intro fresh
  induction fresh with
  | nil => intro r r2 ri h; cases h
  | cons s rest ih =>
    intro r r2 ri h
    rw [growSeeds] at h
    split_ifs at h with hcap hok
    · injection h with h
      rw [Prod.mk.injEq] at h
      exact ⟨⟨s, h.1.symm, hok⟩, h.2.symm, by omega⟩
    · exact ih r r2 ri h

theorem searchSeed_sound (r0 n : Nat) (occ : List Nat) (ks : List Bytes)
    (r fresh r2 : List Nat) (ri : Nat)
    (hlen : r.length ≤ 65535)
    (h : searchSeed r0 n occ ks r fresh = some (r2, ri)) :
    (∃ t, r2 = r ++ t) ∧ r2.length ≤ 65535 ∧ ri < r2.length ∧
      seedOk r0 n occ ks (r2.getD ri 0) := by
  rw [searchSeed] at h
  cases hf : firstOk r0 n occ ks r ((List.range r.length).drop 1) with
  | some ri0 =>
    rw [hf] at h
    injection h with h
    obtain ⟨h1, h2⟩ := Prod.mk.injEq .. ▸ h
    subst h1; subst h2
    obtain ⟨hmem, hsk⟩ := firstOk_sound r0 n occ ks r _ ri0 hf
    have hri : ri0 < r.length := List.mem_range.mp ((List.drop_sublist 1 _).mem hmem)
    exact ⟨⟨[], by simp⟩, hlen, hri, hsk⟩
  | none =>
    rw [hf] at h
    obtain ⟨⟨s, hr2, hok⟩, hri, hcap⟩ := growSeeds_sound r0 n occ ks fresh r r2 ri h
    subst hr2; subst hri
    have hgd : (r ++ [s]).getD r.length 0 = s := by
      simp [List.getD_eq_getElem?_getD, List.getElem?_append_right (Nat.le_refl r.length)]
    refine ⟨⟨[s], rfl⟩, by simp; omega, by simp, by rw [hgd]; exact hok⟩

/-- The master invariant of the bucket-placement loop: on success the final
`(r2, ind2)` give every processed bucket an in-range selector; every key of a
processed bucket lands (under `finSlot`, the slot the finished structure
computes) inside the final occupancy set and outside the initial one; and
the final slots of any two distinct keys across all processed buckets are
distinct. -/
theorem placeBuckets_sound (r0 n : Nat) (fresh : List Nat) :
    ∀ (bs : List (Nat × List Bytes)) (r ind occ r2 ind2 occ2 : List Nat),
    placeBuckets r0 n fresh bs r ind occ = some (r2, ind2, occ2) →
    r.length ≤ 65535 →
    (bs.map Prod.fst).Nodup →
    (∀ p ∈ bs, p.1 < ind.length ∧ p.2.Nodup ∧
      ∀ k ∈ p.2, (hasher k ^^^ r0) % ind.length = p.1) →
    ((∃ t, r2 = r ++ t) ∧ r2.length ≤ 65535 ∧ ind2.length = ind.length ∧
      (∀ b, b ∉ bs.map Prod.fst → ind2.getD b 0 = ind.getD b 0) ∧
      (∀ x ∈ occ, x ∈ occ2) ∧
      (∀ p ∈ bs, ind2.getD p.1 0 < r2.length ∧
        ∀ k ∈ p.2, finSlot r0 n r2 ind2 k ∈ occ2 ∧ finSlot r0 n r2 ind2 k ∉ occ) ∧
      (∀ p1 ∈ bs, ∀ p2 ∈ bs, ∀ k1 ∈ p1.2, ∀ k2 ∈ p2.2, k1 ≠ k2 →
        finSlot r0 n r2 ind2 k1 ≠ finSlot r0 n r2 ind2 k2)) := by
  intro bs
  induction bs with
  | nil =>
    intro r ind occ r2 ind2 occ2 h hrlen _ _
    rw [placeBuckets] at h
    injection h with h
    rw [Prod.mk.injEq] at h
    obtain ⟨rfl, h⟩ := h
    rw [Prod.mk.injEq] at h
    obtain ⟨rfl, rfl⟩ := h
    refine ⟨⟨[], by simp⟩, hrlen, rfl, fun b _ => rfl, fun x hx => hx, ?_, ?_⟩
    · intro p hp; cases hp
    · intro p1 hp1; cases hp1
  | cons bks rest ih =>
    intro r ind occ r2 ind2 occ2 h hrlen hnd hpre
    obtain ⟨b, ks⟩ := bks
    rw [placeBuckets] at h
    cases hs : searchSeed r0 n occ ks r fresh with
    | none => simp only [hs] at h; cases h
    | some rri =>
      obtain ⟨rr, ri⟩ := rri
      simp only [hs] at h
      obtain ⟨⟨t, hrr⟩, hrrlen, hrilt, hok⟩ :=
        searchSeed_sound r0 n occ ks r fresh rr ri hrlen hs
      have hbidsnd : (rest.map Prod.fst).Nodup := by
        rw [List.map_cons, List.nodup_cons] at hnd; exact hnd.2
      have hbnotin : b ∉ rest.map Prod.fst := by
        rw [List.map_cons, List.nodup_cons] at hnd; exact hnd.1
      have hblt : b < ind.length := (hpre (b, ks) (List.mem_cons_self _ _)).1
      have hksnd : ks.Nodup := (hpre (b, ks) (List.mem_cons_self _ _)).2.1
      have hbk : ∀ k ∈ ks, (hasher k ^^^ r0) % ind.length = b :=
        (hpre (b, ks) (List.mem_cons_self _ _)).2.2
      have hind'len : (ind.set b ri).length = ind.length := List.length_set ..
      have hpre' : ∀ p ∈ rest, p.1 < (ind.set b ri).length ∧ p.2.Nodup ∧
          ∀ k ∈ p.2, (hasher k ^^^ r0) % (ind.set b ri).length = p.1 := by
        intro p hp
        have hp' := hpre p (List.mem_cons_of_mem _ hp)
        rw [hind'len]
        exact hp'
      obtain ⟨⟨t2, hr2⟩, hr2len, hind2len, hframe, hoccsub, hbuckets, hinj⟩ :=
        ih rr (ind.set b ri) (occ ++ ks.map (slotOf r0 (rr.getD ri 0) n))
          r2 ind2 occ2 h hrrlen hbidsnd hpre'
      have hind2b : ind2.getD b 0 = ri := by
        rw [hframe b hbnotin, List.getD_eq_getElem?_getD]
        simp [List.getElem?_set_self, hblt]
      have hseedstable : r2.getD ri 0 = rr.getD ri 0 := by
        rw [hr2, List.getD_eq_getElem?_getD, List.getElem?_append_left hrilt,
          ← List.getD_eq_getElem?_getD]
      have hfs : ∀ k ∈ ks,
          finSlot r0 n r2 ind2 k = slotOf r0 (rr.getD ri 0) n k := by
        intro k hk
        have h1 : (hasher k ^^^ r0) % ind2.length = b := by
          rw [hind2len, hind'len]; exact hbk k hk
        simp only [finSlot, slotOf, h1, hind2b, hseedstable]
      have hocc'sub : ∀ x ∈ occ, x ∈ occ ++ ks.map (slotOf r0 (rr.getD ri 0) n) :=
        fun x hx => List.mem_append_left _ hx
      have hheadmem : ∀ k ∈ ks,
          slotOf r0 (rr.getD ri 0) n k ∈ occ ++ ks.map (slotOf r0 (rr.getD ri 0) n) :=
        fun k hk => List.mem_append_right _ (List.mem_map_of_mem _ hk)
      have hcross : ∀ k1 ∈ ks, ∀ p ∈ rest, ∀ k2 ∈ p.2,
          finSlot r0 n r2 ind2 k1 ≠ finSlot r0 n r2 ind2 k2 := by
        intro k1 hk1 p hp k2 hk2 contra
        have m2 : finSlot r0 n r2 ind2 k2 ∉ occ ++ ks.map (slotOf r0 (rr.getD ri 0) n) :=
          ((hbuckets p hp).2 k2 hk2).2
        rw [← contra, hfs k1 hk1] at m2
        exact m2 (hheadmem k1 hk1)
      refine ⟨⟨t ++ t2, by rw [hr2, hrr, List.append_assoc]⟩, hr2len,
        hind2len.trans hind'len, ?_, fun x hx => hoccsub x (hocc'sub x hx), ?_, ?_⟩
      · intro b' hb'
        rw [List.map_cons, List.mem_cons] at hb'
        push_neg at hb'
        rw [hframe b' hb'.2, List.getD_eq_getElem?_getD,
          List.getElem?_set_ne (Ne.symm hb'.1), ← List.getD_eq_getElem?_getD]
      · intro p hp
        rcases List.mem_cons.mp hp with rfl | hp'
        · refine ⟨?_, ?_⟩
          · rw [hind2b]
            have : rr.length ≤ r2.length := by rw [hr2]; simp
            omega
          · intro k hk
            rw [hfs k hk]
            exact ⟨hoccsub _ (hheadmem k hk), hok.2 k hk⟩
        · obtain ⟨hlt, hmem⟩ := hbuckets p hp'
          refine ⟨hlt, fun k hk => ⟨(hmem k hk).1, fun hin => (hmem k hk).2 (hocc'sub _ hin)⟩⟩
      · intro p1 hp1 p2 hp2 k1 hk1 k2 hk2 hne
        rcases List.mem_cons.mp hp1 with rfl | hp1' <;>
          rcases List.mem_cons.mp hp2 with rfl | hp2'
        · rw [hfs k1 hk1, hfs k2 hk2]
          intro contra
          exact hne (List.inj_on_of_nodup_map hok.1 hk1 hk2 contra)
        · exact hcross k1 hk1 p2 hp2' k2 hk2
        · exact fun contra => hcross k2 hk2 p1 hp1' k1 hk1 contra.symm
        · exact hinj p1 hp1' p2 hp2' k1 hk1 k2 hk2 hne

/-! ## From `Build` to the bucket list -/

theorem buildBuckets_ids_nodup (pairs : List (Bytes × Bytes)) (m r0 : Nat) :
    ((buildBuckets pairs m r0).map Prod.fst).Nodup := by
  have h1 : (orderedBuckets pairs m r0).Nodup :=
    ((List.perm_insertionSort _ _).nodup_iff).mpr (List.nodup_range m)
  have h2 : ((buildBuckets pairs m r0).map Prod.fst).Sublist
      (((orderedBuckets pairs m r0).map
        (fun b => (b, bucketKeys pairs m r0 b))).map Prod.fst) :=
    (List.filter_sublist _).map Prod.fst
  have h3 : (((orderedBuckets pairs m r0).map
      (fun b => (b, bucketKeys pairs m r0 b))).map Prod.fst) =
      orderedBuckets pairs m r0 := by
    rw [List.map_map]
    exact List.map_id _
  rw [h3] at h2
  exact h2.nodup h1

theorem buildBuckets_pre (pairs : List (Bytes × Bytes)) (m r0 : Nat)
    (hND : (pairs.map Prod.fst).Nodup) :
    ∀ p ∈ buildBuckets pairs m r0, p.1 < m ∧ p.2.Nodup ∧
      ∀ k ∈ p.2, (hasher k ^^^ r0) % m = p.1 := by
  intro p hp
  obtain ⟨hp1, _⟩ := List.mem_filter.mp hp
  obtain ⟨b, hb, rfl⟩ := List.mem_map.mp hp1
  refine ⟨?_, ?_, ?_⟩
  · exact List.mem_range.mp ((List.perm_insertionSort _ _).mem_iff.mp hb)
  · exact ((List.filter_sublist _).map Prod.fst).nodup hND
  · intro k hk
    obtain ⟨pr, hpr, rfl⟩ := List.mem_map.mp hk
    have hpred := (List.mem_filter.mp hpr).2
    simpa [bucketOf] using hpred

theorem mem_buildBuckets (pairs : List (Bytes × Bytes)) (m r0 : Nat) (hm : m ≠ 0)
    (k : Bytes) (hk : k ∈ pairs.map Prod.fst) :
    ((hasher k ^^^ r0) % m, bucketKeys pairs m r0 ((hasher k ^^^ r0) % m)) ∈
      buildBuckets pairs m r0 ∧
    k ∈ bucketKeys pairs m r0 ((hasher k ^^^ r0) % m) := by
  obtain ⟨pr, hpr, rfl⟩ := List.mem_map.mp hk
  have hkmem : pr.1 ∈ bucketKeys pairs m r0 ((hasher pr.1 ^^^ r0) % m) := by
    refine List.mem_map.mpr ⟨pr, List.mem_filter.mpr ⟨hpr, ?_⟩, rfl⟩
    simp [bucketOf]
  refine ⟨?_, hkmem⟩
  have hblt : (hasher pr.1 ^^^ r0) % m < m := Nat.mod_lt _ (Nat.pos_of_ne_zero hm)
  have hbord : (hasher pr.1 ^^^ r0) % m ∈ orderedBuckets pairs m r0 :=
    (List.perm_insertionSort _ _).mem_iff.mpr (List.mem_range.mpr hblt)
  refine List.mem_filter.mpr ⟨List.mem_map_of_mem _ hbord, ?_⟩
  simp only [Bool.not_eq_eq_eq_not, Bool.not_true, List.isEmpty_eq_false]
  exact List.ne_nil_of_mem hkmem

/-! ## Claim C2: the built indexer is a minimal perfect hash -/

/-- C2: for every successfully built table over `n` distinct keys,
`Indexer.Get` restricted to the build set is a bijection onto
`{0, ..., n-1}`: distinct build keys get distinct slots, every build key
gets a slot below `n`, and every slot below `n` is hit by some build key. -/
theorem build_is_minimal_perfect (pairs : List (Bytes × Bytes)) (m r0 : Nat)
    (fresh : List Nat) (T : CHD)
    (hB : Build pairs m r0 fresh = some T)
    (hND : (pairs.map Prod.fst).Nodup) :
    (∀ k1 ∈ pairs.map Prod.fst, ∀ k2 ∈ pairs.map Prod.fst, k1 ≠ k2 →
      T.Indexer.Get k1 pairs.length ≠ T.Indexer.Get k2 pairs.length) ∧
    (∀ k ∈ pairs.map Prod.fst, ∃ s, s < pairs.length ∧
      T.Indexer.Get k pairs.length = some s) ∧
    (∀ s, s < pairs.length → ∃ k ∈ pairs.map Prod.fst,
      T.Indexer.Get k pairs.length = some s) := by
  by_cases hn : pairs.length = 0
  · have hpairs : pairs = [] := List.length_eq_zero.mp hn
    subst hpairs
    refine ⟨?_, ?_, ?_⟩
    · intro k1 hk1; simp at hk1
    · intro k hk; simp at hk
    · intro s hs; simp at hs
  · by_cases hm : m = 0
    · rw [Build, if_neg hn, if_pos hm] at hB; cases hB
    · rw [Build, if_neg hn, if_neg hm] at hB
      split at hB
      · cases hB
      · rename_i r2 ind2 occ2 hpb
        injection hB with hB
        subst hB
        dsimp only
        have hsound := placeBuckets_sound r0 pairs.length fresh
          (buildBuckets pairs m r0) [r0] (List.replicate m 65535) [] r2 ind2 occ2
          hpb (by simp) (buildBuckets_ids_nodup pairs m r0)
          (by
            intro p hp
            have hpre := buildBuckets_pre pairs m r0 hND p hp
            simpa [List.length_replicate] using hpre)
        obtain ⟨⟨t, hr2⟩, hr2len, hind2len, _, _, hbuckets, hinj⟩ := hsound
        rw [List.length_replicate] at hind2len
        have hr2' : r2 = r0 :: t := by simpa using hr2
        have hind2ne : ind2 ≠ [] := by
          intro hcon
          rw [hcon] at hind2len
          exact hm hind2len.symm
        have hkey : ∀ k ∈ pairs.map Prod.fst,
            Indexer.Get ⟨r2, ind2⟩ k pairs.length =
              some (finSlot r0 pairs.length r2 ind2 k) ∧
            finSlot r0 pairs.length r2 ind2 k < pairs.length := by
          intro k hk
          obtain ⟨hbmem, _⟩ := mem_buildBuckets pairs m r0 hm k hk
          have hb := hbuckets _ hbmem
          have hmod : (hasher k ^^^ r0) % ind2.length = (hasher k ^^^ r0) % m := by
            rw [hind2len]
          have hfs_lt : finSlot r0 pairs.length r2 ind2 k < pairs.length := by
            simp only [finSlot]
            exact Nat.mod_lt _ (Nat.pos_of_ne_zero hn)
          refine ⟨?_, hfs_lt⟩
          rw [hr2', indexerGet_eq r0 t ind2 k pairs.length hind2ne hn]
          have hcond : ¬((r0 :: t).length % 65536 ≤
              ind2.getD ((hasher k ^^^ r0) % ind2.length) 0) := by
            rw [hmod]
            have h1 : ind2.getD ((hasher k ^^^ r0) % m) 0 < r2.length := hb.1
            rw [← hr2', Nat.mod_eq_of_lt (by omega : r2.length < 65536)]
            omega
          rw [if_neg hcond]
          simp only [finSlot, hr2']
        have hne : ∀ k1 ∈ pairs.map Prod.fst, ∀ k2 ∈ pairs.map Prod.fst, k1 ≠ k2 →
            finSlot r0 pairs.length r2 ind2 k1 ≠ finSlot r0 pairs.length r2 ind2 k2 := by
          intro k1 hk1 k2 hk2 h12
          obtain ⟨hb1, hm1⟩ := mem_buildBuckets pairs m r0 hm k1 hk1
          obtain ⟨hb2, hm2⟩ := mem_buildBuckets pairs m r0 hm k2 hk2
          exact hinj _ hb1 _ hb2 k1 hm1 k2 hm2 h12
        refine ⟨?_, ?_, ?_⟩
        · intro k1 hk1 k2 hk2 h12
          rw [(hkey k1 hk1).1, (hkey k2 hk2).1]
          intro contra
          exact hne k1 hk1 k2 hk2 h12 (Option.some.inj contra)
        · intro k hk
          exact ⟨_, (hkey k hk).2, (hkey k hk).1⟩
        · intro s hs
          have hinjOn : Set.InjOn (finSlot r0 pairs.length r2 ind2)
              ((pairs.map Prod.fst).toFinset : Finset Bytes) := by
            intro k1 hk1 k2 hk2 hfe
            by_contra h12
            exact hne k1 (List.mem_toFinset.mp (Finset.mem_coe.mp hk1))
              k2 (List.mem_toFinset.mp (Finset.mem_coe.mp hk2)) h12 hfe
          have hcard : (pairs.map Prod.fst).toFinset.card = pairs.length := by
            rw [List.toFinset_card_of_nodup hND, List.length_map]
          have himg : (pairs.map Prod.fst).toFinset.image
              (finSlot r0 pairs.length r2 ind2) = Finset.range pairs.length := by
            apply Finset.eq_of_subset_of_card_le
            · intro x hx
              obtain ⟨k, hk, rfl⟩ := Finset.mem_image.mp hx
              exact Finset.mem_range.mpr (hkey k (List.mem_toFinset.mp hk)).2
            · rw [Finset.card_range, Finset.card_image_of_injOn hinjOn, hcard]
          have hs' : s ∈ (pairs.map Prod.fst).toFinset.image
              (finSlot r0 pairs.length r2 ind2) := by
            rw [himg]
            exact Finset.mem_range.mpr hs
          obtain ⟨k, hk, hfk⟩ := Finset.mem_image.mp hs'
          have hk' := List.mem_toFinset.mp hk
          exact ⟨k, hk', by rw [(hkey k hk').1, hfk]⟩

/-- Witness for C2 at a concrete successful two-key build ("a" ↦ "1",
"b" ↦ "2", one bucket, primary seed 0, one fresh displacement seed). -/
theorem build_is_minimal_perfect_witness :
    (([([97], [49]), ([98], [50])] : List (Bytes × Bytes)).map Prod.fst).Nodup ∧
    ((∀ k1 ∈ ([([97], [49]), ([98], [50])] : List (Bytes × Bytes)).map Prod.fst,
      ∀ k2 ∈ ([([97], [49]), ([98], [50])] : List (Bytes × Bytes)).map Prod.fst,
      k1 ≠ k2 →
      (CHD.mk ⟨[0, 0], [1]⟩ [[97], [98]] [[49], [50]]).Indexer.Get k1 2 ≠
        (CHD.mk ⟨[0, 0], [1]⟩ [[97], [98]] [[49], [50]]).Indexer.Get k2 2) ∧
    (∀ k ∈ ([([97], [49]), ([98], [50])] : List (Bytes × Bytes)).map Prod.fst,
      ∃ s, s < 2 ∧
      (CHD.mk ⟨[0, 0], [1]⟩ [[97], [98]] [[49], [50]]).Indexer.Get k 2 = some s) ∧
    (∀ s, s < 2 → ∃ k ∈ ([([97], [49]), ([98], [50])] : List (Bytes × Bytes)).map Prod.fst,
      (CHD.mk ⟨[0, 0], [1]⟩ [[97], [98]] [[49], [50]]).Indexer.Get k 2 = some s)) :=
  ⟨by decide,
    build_is_minimal_perfect [([97], [49]), ([98], [50])] 1 0 [0]
      (CHD.mk ⟨[0, 0], [1]⟩ [[97], [98]] [[49], [50]]) (by decide) (by decide)⟩

end Mph
